import Mathlib

/- Verification of the agentloop local inference services: the text
chunker of the chatterbox TTS server, its audio concatenation, the
request validation logic of the four HTTP gateways, and the generation
lock of the mlx LLM server. All definitions are shallow embeddings of
the Python sources under src/scripts. Strings are modelled as List Char
and Python integer lengths as Nat (all claims restrict the character
budget to nonnegative values). -/

namespace Agentloop

/-- Whitespace test used throughout the chunker model. It covers the
ASCII whitespace characters recognised by Python's str.strip, str.split
and the regex class backslash-s: space, tab, newline, carriage return,
vertical tab and form feed. Non-ASCII Unicode whitespace is abstracted
away; every operation below uses this one predicate, exactly as the
Python string operations all use the same whitespace class. -/
def isSpace (c : Char) : Bool :=
  c = ' ' || c = '\t' || c = '\n' || c = '\r' || c = '\x0b' || c = '\x0c'

/-- Scanner for Python str.split with no arguments. The accumulator
holds the current word reversed; a whitespace character flushes it, and
empty words are never produced. -/
def splitWsGo : List Char → List Char → List (List Char)
  | acc, [] => if acc = [] then [] else [acc.reverse]
  | acc, c :: rest =>
    if isSpace c then
      if acc = [] then splitWsGo [] rest else acc.reverse :: splitWsGo [] rest
    else
      splitWsGo (c :: acc) rest

/-- Python str.split() with no arguments: the maximal whitespace-free
runs of the string, in order. -/
def splitWs (l : List Char) : List (List Char) :=
  splitWsGo [] l

/-- Python str.strip(): drop leading and trailing whitespace. -/
def strip (l : List Char) : List Char :=
  (((l.dropWhile isSpace).reverse).dropWhile isSpace).reverse

/-- Head test for the split-after scanner: whether the most recently
scanned character of the current segment satisfies P. This models the
regex lookbehind. -/
def headSat (P : Char → Bool) : List Char → Bool
  | [] => false
  | c :: _ => P c

/-- Scanner for Python re.split(r"(?<=[P])\s+", text). Mode some acc is
inside a segment whose characters so far are acc reversed; mode none is
inside a separator whitespace run that is being discarded. A separator
starts exactly at a whitespace character whose predecessor satisfies P,
and greedily swallows the whole whitespace run, matching the regex. A
text ending in a separator yields a final empty segment, as re.split
does. -/
def splitAfterGo (P : Char → Bool) : Option (List Char) → List Char → List (List Char)
  | none, [] => [[]]
  | some acc, [] => [acc.reverse]
  | none, c :: rest =>
    if isSpace c then splitAfterGo P none rest
    else splitAfterGo P (some [c]) rest
  | some acc, c :: rest =>
    if headSat P acc && isSpace c then
      acc.reverse :: splitAfterGo P none rest
    else
      splitAfterGo P (some (c :: acc)) rest

/-- Python re.split with a lookbehind-P whitespace-plus pattern: split
at whitespace runs that immediately follow a character satisfying P,
dropping the whitespace. -/
def splitAfter (P : Char → Bool) (l : List Char) : List (List Char) :=
  splitAfterGo P (some []) l

/-- Sentence-terminal punctuation of the chunker's first-level split,
the regex class [.!?] at src/scripts/services/chatterbox/server.py:79. -/
def isSentC (c : Char) : Bool :=
  c = '.' || c = '!' || c = '?'

/-- Clause punctuation of the chunker's second-level split, the regex
class [,] at src/scripts/services/chatterbox/server.py:89. -/
def isClauseC (c : Char) : Bool :=
  c = ','

/-- Python `if current: chunks.append(current.strip())`: flush the
accumulator onto the chunk list when it is non-empty. -/
def flushChunk (chunks : List (List Char)) (cur : List Char) : List (List Char) :=
  if cur = [] then chunks else chunks ++ [strip cur]

/-- Word-level loop of _split_text (server.py:93-102): greedily pack
whitespace-separated words into word_chunk under the budget, flushing
word_chunk to chunks when the next word does not fit. Note that the
enclosing current accumulator is not touched here, exactly as in the
source. -/
def wordLoop (m : Nat) : List (List Char) → List Char → List (List Char) →
    List (List Char) × List Char
  | chunks, wc, [] => (chunks, wc)
  | chunks, wc, w :: ws =>
    if wc.length + 1 + w.length ≤ m then
      wordLoop m chunks (strip (wc ++ ' ' :: w)) ws
    else
      wordLoop m (flushChunk chunks wc) w ws

/-- Clause-level loop of _split_text (server.py:90-109): an oversized
clause is word-split (after which the trailing word_chunk is flushed,
server.py:101-102), a fitting clause is accumulated into current, and a
non-fitting one flushes current and restarts it. -/
def partLoop (m : Nat) : List (List Char) → List Char → List (List Char) →
    List (List Char) × List Char
  | chunks, cur, [] => (chunks, cur)
  | chunks, cur, p :: ps =>
    if m < p.length then
      partLoop m (flushChunk (wordLoop m chunks [] (splitWs p)).1
        (wordLoop m chunks [] (splitWs p)).2) cur ps
    else if cur.length + 1 + p.length ≤ m then
      partLoop m chunks (strip (cur ++ ' ' :: p)) ps
    else
      partLoop m (flushChunk chunks cur) p ps

/-- Sentence-level loop of _split_text (server.py:83-116): an oversized
sentence flushes current and recurses into clause splitting; otherwise
sentences are greedily accumulated into current. -/
def sentLoop (m : Nat) : List (List Char) → List Char → List (List Char) →
    List (List Char) × List Char
  | chunks, cur, [] => (chunks, cur)
  | chunks, cur, s :: ss =>
    if m < s.length then
      sentLoop m (partLoop m (flushChunk chunks cur) [] (splitAfter isClauseC s)).1
        (partLoop m (flushChunk chunks cur) [] (splitAfter isClauseC s)).2 ss
    else if cur.length + 1 + s.length ≤ m then
      sentLoop m chunks (strip (cur ++ ' ' :: s)) ss
    else
      sentLoop m (flushChunk chunks cur) s ss

/-- The text chunker _split_text(text, max_chars) of
src/scripts/services/chatterbox/server.py:73-121: texts within the
budget are returned unchanged as a singleton, otherwise the text is
split into sentences, clauses and words greedily, the trailing
accumulator is flushed, and whitespace-only chunks are filtered out. -/
def split_text (text : List Char) (max_chars : Nat) : List (List Char) :=
  if text.length ≤ max_chars then [text]
  else
    (flushChunk (sentLoop max_chars [] [] (splitAfter isSentC text)).1
      (sentLoop max_chars [] [] (splitAfter isSentC text)).2).filter
      (fun c => !(strip c).isEmpty)

/-! Basic facts about the whitespace operations. -/

/-- A dropWhile that removes nothing when no element satisfies the
predicate. -/
theorem dropWhile_eq_self_of_none (p : Char → Bool) :
    ∀ l : List Char, (∀ c ∈ l, p c = false) → l.dropWhile p = l
  | [], _ => rfl
  | c :: l, h => by
    have hc : p c = false := h c (by simp)
    simp [List.dropWhile_cons, hc]

/-- Stripping a whitespace-free string is the identity. -/
theorem strip_eq_self {l : List Char} (h : ∀ c ∈ l, isSpace c = false) : strip l = l := by
  unfold strip
  rw [dropWhile_eq_self_of_none _ l h]
  rw [dropWhile_eq_self_of_none _ l.reverse (by intro c hc; exact h c (by simpa using hc))]
  simp

/-- Stripping never lengthens a string. -/
theorem strip_length_le (l : List Char) : (strip l).length ≤ l.length := by
  unfold strip
  simp only [List.length_reverse]
  exact le_trans ((List.dropWhile_sublist _).length_le)
    (by simpa using (List.dropWhile_sublist (l := l) isSpace).length_le)

/-- Splitting on words distributes over a whitespace junction: the
whitespace character flushes the accumulator exactly as the end of the
input would. -/
theorem splitWsGo_space {c : Char} (hc : isSpace c = true) (ys : List Char) :
    ∀ xs acc, splitWsGo acc (xs ++ c :: ys) = splitWsGo acc xs ++ splitWsGo [] ys := by
  intro xs
  induction xs with
  | nil =>
    intro acc
    by_cases h : acc = []
    · subst h; simp [splitWsGo, hc]
    · simp [splitWsGo, hc, h]
  | cons x xs ih =>
    intro acc
    by_cases hx : isSpace x = true
    · by_cases h : acc = []
      · subst h; simp [splitWsGo, hx, ih]
      · simp [splitWsGo, hx, h, ih]
    · simp [splitWsGo, hx, ih]

/-- Splitting a whitespace junction into words, stated for splitWs. -/
theorem splitWs_append_space {c : Char} (hc : isSpace c = true) (a b : List Char) :
    splitWs (a ++ c :: b) = splitWs a ++ splitWs b :=
  splitWsGo_space hc b a []

/-- A fully-whitespace input only flushes the accumulator. -/
theorem splitWsGo_allspace :
    ∀ s : List Char, (∀ c ∈ s, isSpace c = true) → ∀ acc,
      splitWsGo acc s = if acc = [] then [] else [acc.reverse]
  | [], _, _ => rfl
  | c :: s, h, acc => by
    have hc := h c (by simp)
    have ih := splitWsGo_allspace s (fun d hd => h d (by simp [hd]))
    by_cases ha : acc = []
    · subst ha; simp [splitWsGo, hc, ih]
    · simp [splitWsGo, hc, ha, ih]

/-- A whitespace-only suffix contributes no words. -/
theorem splitWsGo_append_allspace {s : List Char} (hs : ∀ c ∈ s, isSpace c = true) :
    ∀ l acc, splitWsGo acc (l ++ s) = splitWsGo acc l := by
  intro l
  induction l with
  | nil =>
    intro acc
    rw [List.nil_append, splitWsGo_allspace s hs acc]
    rfl
  | cons c l ih =>
    intro acc
    by_cases hc : isSpace c = true
    · by_cases ha : acc = []
      · subst ha; simp [splitWsGo, hc, ih]
      · simp [splitWsGo, hc, ha, ih]
    · simp [splitWsGo, hc, ih]

/-- A whitespace-only prefix contributes no words. -/
theorem splitWs_dropWhile (l : List Char) :
    splitWsGo [] (l.dropWhile isSpace) = splitWsGo [] l := by
  induction l with
  | nil => rfl
  | cons c l ih =>
    by_cases hc : isSpace c = true
    · rw [List.dropWhile_cons]
      simp [hc, ih, splitWsGo]
    · rw [List.dropWhile_cons]
      simp [hc, splitWsGo]

/-- Stripping does not change the word list. -/
theorem splitWs_strip (l : List Char) : splitWs (strip l) = splitWs l := by
  unfold splitWs strip
  rw [← splitWs_dropWhile l]
  set d := l.dropWhile isSpace with hd
  have hdecomp : d = (d.reverse.dropWhile isSpace).reverse ++ (d.reverse.takeWhile isSpace).reverse := by
    calc d = d.reverse.reverse := by simp
    _ = (d.reverse.takeWhile isSpace ++ d.reverse.dropWhile isSpace).reverse := by
          rw [List.takeWhile_append_dropWhile]
    _ = (d.reverse.dropWhile isSpace).reverse ++ (d.reverse.takeWhile isSpace).reverse := by
          rw [List.reverse_append]
  have hws : ∀ c ∈ (d.reverse.takeWhile isSpace).reverse, isSpace c = true := by
    intro c hc
    exact List.mem_takeWhile_imp (by simpa using hc)
  conv_rhs => rw [hdecomp]
  exact (splitWsGo_append_allspace hws _ _).symm

/-- On a whitespace-free input the scanner returns the single
accumulated word. -/
theorem splitWsGo_wsFree :
    ∀ l : List Char, (∀ c ∈ l, isSpace c = false) → ∀ acc,
      splitWsGo acc l = if acc.reverse ++ l = [] then [] else [acc.reverse ++ l]
  | [], _, acc => by
    by_cases h : acc = []
    · subst h; rfl
    · simp [splitWsGo, h]
  | c :: l, h, acc => by
    have hc := h c (by simp)
    have ih := splitWsGo_wsFree l (fun d hd => h d (by simp [hd])) (c :: acc)
    simp only [splitWsGo]
    rw [if_neg (by simp [hc]), ih]
    simp [List.reverse_cons, List.append_assoc]

/-- A single whitespace-free word splits into itself. -/
theorem splitWs_token {w : List Char} (hne : w ≠ []) (hws : ∀ c ∈ w, isSpace c = false) :
    splitWs w = [w] := by
  unfold splitWs
  rw [splitWsGo_wsFree w hws []]
  simp [hne]

/-- Every word produced by the scanner is non-empty and
whitespace-free, provided the accumulator is. -/
theorem mem_splitWsGo :
    ∀ (l acc w : List Char),
      (∀ c ∈ acc, isSpace c = false) → w ∈ splitWsGo acc l →
      w ≠ [] ∧ ∀ c ∈ w, isSpace c = false
  | [], acc, w, hacc, hw => by
    by_cases h : acc = []
    · subst h; simp [splitWsGo] at hw
    · simp [splitWsGo, h] at hw
      subst hw
      refine ⟨by simpa using h, ?_⟩
      intro c hc
      exact hacc c (by simpa using hc)
  | c :: l, acc, w, hacc, hw => by
    by_cases hc : isSpace c = true
    · by_cases ha : acc = []
      · subst ha
        simp only [splitWsGo, hc, if_true, if_pos rfl] at hw
        exact mem_splitWsGo l [] w (by simp) hw
      · simp only [splitWsGo, hc, if_true, if_neg ha, List.mem_cons] at hw
        rcases hw with hw | hw
        · subst hw
          refine ⟨by simpa using ha, ?_⟩
          intro d hd
          exact hacc d (by simpa using hd)
        · exact mem_splitWsGo l [] w (by simp) hw
    · simp only [splitWsGo] at hw
      rw [if_neg (by simp [hc])] at hw
      refine mem_splitWsGo l (c :: acc) w ?_ hw
      intro d hd
      rcases List.mem_cons.mp hd with h | h
      · subst h; simpa using hc
      · exact hacc d h

/-- Every word of splitWs is non-empty and whitespace-free. -/
theorem mem_splitWs {l w : List Char} (hw : w ∈ splitWs l) :
    w ≠ [] ∧ ∀ c ∈ w, isSpace c = false :=
  mem_splitWsGo l [] w (by simp) hw

/-- A nonempty accumulator guarantees a nonempty result. -/
theorem splitWsGo_ne_nil :
    ∀ (l acc : List Char), acc ≠ [] → splitWsGo acc l ≠ []
  | [], acc, h => by simp [splitWsGo, h]
  | c :: l, acc, h => by
    by_cases hc : isSpace c = true
    · simp [splitWsGo, hc, h]
    · simp only [splitWsGo]
      rw [if_neg (by simp [hc])]
      exact splitWsGo_ne_nil l (c :: acc) (by simp)

/-- The word list is empty exactly for whitespace-only strings. -/
theorem splitWs_eq_nil_iff : ∀ l : List Char, splitWs l = [] ↔ ∀ c ∈ l, isSpace c = true
  | [] => by simp [splitWs, splitWsGo]
  | c :: l => by
    by_cases hc : isSpace c = true
    · have ih := splitWs_eq_nil_iff l
      unfold splitWs at ih ⊢
      simp [splitWsGo, hc, ih]
    · constructor
      · intro h
        exfalso
        unfold splitWs at h
        simp only [splitWsGo] at h
        rw [if_neg (by simp [hc])] at h
        exact splitWsGo_ne_nil l [c] (by simp) h
      · intro h
        exact absurd (h c (by simp)) (by simp [hc])

/-- Stripping to nothing happens exactly for whitespace-only strings. -/
theorem strip_eq_nil_iff (l : List Char) :
    strip l = [] ↔ ∀ c ∈ l, isSpace c = true := by
  unfold strip
  rw [List.reverse_eq_nil_iff, List.dropWhile_eq_nil_iff]
  constructor
  · intro h c hc
    have hmem : c ∈ l.takeWhile isSpace ++ l.dropWhile isSpace := by
      rw [List.takeWhile_append_dropWhile]
      exact hc
    rcases List.mem_append.mp hmem with h1 | h1
    · exact List.mem_takeWhile_imp h1
    · exact h c (by simpa using h1)
  · intro h c hc
    have hc2 : c ∈ l.dropWhile isSpace := by simpa using hc
    exact h c ((List.dropWhile_sublist isSpace).subset hc2)

/-- The concatenated word lists of a list of strings. -/
def toksAll (cs : List (List Char)) : List (List Char) :=
  (cs.map splitWs).flatten

/-- Joining a list of chunks with a single space between consecutive
chunks, the separator named by the spec's rejoin guarantee. -/
def joinSpace : List (List Char) → List Char
  | [] => []
  | [c] => c
  | c :: cs => c ++ ' ' :: joinSpace cs

/-- Words pass through the space-join unchanged. -/
theorem splitWs_joinSpace : ∀ cs : List (List Char), splitWs (joinSpace cs) = toksAll cs
  | [] => by simp [joinSpace, toksAll, splitWs, splitWsGo]
  | [c] => by simp [joinSpace, toksAll]
  | c :: d :: cs => by
    have ih := splitWs_joinSpace (d :: cs)
    show splitWs (c ++ ' ' :: joinSpace (d :: cs)) = toksAll (c :: d :: cs)
    rw [splitWs_append_space (by decide) c (joinSpace (d :: cs)), ih]
    simp [toksAll]

/-- Splitting after punctuation separators neither loses, duplicates
nor reorders words: the separators it removes are whitespace runs, so
the word lists of the segments concatenate to the word list of the
input. This is the key structural fact about both regex splits of
_split_text. -/
theorem splitAfterGo_toks (P : Char → Bool) :
    ∀ (l : List Char) (mode : Option (List Char)),
      ((splitAfterGo P mode l).map splitWs).flatten =
        splitWs ((mode.getD []).reverse ++ l)
  | [], none => by simp [splitAfterGo, splitWs, splitWsGo]
  | [], some acc => by simp [splitAfterGo]
  | c :: rest, none => by
    by_cases hc : isSpace c = true
    · have ih := splitAfterGo_toks P rest none
      simp only [splitAfterGo]
      rw [if_pos hc, ih]
      show splitWs rest = splitWs (c :: rest)
      unfold splitWs
      simp [splitWsGo, hc]
    · have ih := splitAfterGo_toks P rest (some [c])
      simp only [splitAfterGo]
      rw [if_neg (by simp [hc])]
      rw [ih]
      rfl
  | c :: rest, some acc => by
    by_cases hcut : (headSat P acc && isSpace c) = true
    · have hc : isSpace c = true := (Bool.and_eq_true _ _ |>.mp hcut).2
      have ih := splitAfterGo_toks P rest none
      simp only [splitAfterGo, hcut, if_pos, List.map_cons, List.flatten_cons]
      rw [ih]
      show splitWs acc.reverse ++ splitWs rest = splitWs (acc.reverse ++ c :: rest)
      rw [splitWs_append_space hc]
    · have ih := splitAfterGo_toks P rest (some (c :: acc))
      simp only [splitAfterGo]
      rw [if_neg (by simp at hcut ⊢; exact hcut), ih]
      simp [List.reverse_cons, List.append_assoc]

/-- The segments of splitAfter carry exactly the words of the input, in
order. -/
theorem splitAfter_toks (P : Char → Bool) (l : List Char) :
    toksAll (splitAfter P l) = splitWs l := by
  unfold toksAll splitAfter
  rw [splitAfterGo_toks P l (some [])]
  rfl

/-- Membership version: any word of any segment is a word of the
input. -/
theorem mem_of_mem_splitAfter {P : Char → Bool} {l p w : List Char}
    (hp : p ∈ splitAfter P l) (hw : w ∈ splitWs p) : w ∈ splitWs l := by
  rw [← splitAfter_toks P l]
  unfold toksAll
  rw [List.mem_flatten]
  exact ⟨splitWs p, List.mem_map_of_mem _ hp, hw⟩

/-! Token accounting through the chunker loops. -/

/-- Flushing moves the accumulator's words onto the end of the chunk
word list. -/
theorem flushChunk_toks (chunks : List (List Char)) (cur : List Char) :
    toksAll (flushChunk chunks cur) = toksAll chunks ++ splitWs cur := by
  unfold flushChunk
  by_cases h : cur = []
  · subst h
    simp [toksAll, splitWs, splitWsGo]
  · simp [h, toksAll, splitWs_strip]

/-- The words of an accumulator extended by one piece across a space. -/
theorem splitWs_strip_append (a b : List Char) :
    splitWs (strip (a ++ ' ' :: b)) = splitWs a ++ splitWs b := by
  rw [splitWs_strip, splitWs_append_space (by decide)]

/-- Swapping the two middle blocks of a four-block concatenation is a
permutation. -/
theorem perm_middle_swap (A P C R : List (List Char)) :
    (A ++ P ++ C ++ R).Perm (A ++ C ++ (P ++ R)) := by
  have h2 : (A ++ ((P ++ C) ++ R)).Perm (A ++ ((C ++ P) ++ R)) :=
    ((List.perm_append_comm).append_right R).append_left A
  simpa [List.append_assoc] using h2

/-- The word loop preserves the words exactly, in order: every word of
the input word list ends up in a flushed chunk or in the trailing
word_chunk. -/
theorem wordLoop_toks (m : Nat) :
    ∀ (ws chunks : List (List Char)) (wc : List Char),
      (∀ w ∈ ws, w ≠ [] ∧ ∀ c ∈ w, isSpace c = false) →
      toksAll (wordLoop m chunks wc ws).1 ++ splitWs (wordLoop m chunks wc ws).2 =
        toksAll chunks ++ splitWs wc ++ ws
  | [], chunks, wc, _ => by simp [wordLoop]
  | w :: ws, chunks, wc, h => by
    have hw := h w (by simp)
    have ih := fun chunks wc =>
      wordLoop_toks m ws chunks wc (fun v hv => h v (by simp [hv]))
    simp only [wordLoop]
    by_cases hfit : wc.length + 1 + w.length ≤ m
    · rw [if_pos hfit, ih, splitWs_strip_append wc w, splitWs_token hw.1 hw.2]
      simp [List.append_assoc]
    · rw [if_neg hfit, ih, flushChunk_toks, splitWs_token hw.1 hw.2]
      simp [List.append_assoc]

/-- The clause loop preserves the words up to permutation. The
permutation is not the identity in general: an oversized clause is
word-split and emitted ahead of the still-pending accumulator. -/
theorem partLoop_toks (m : Nat) :
    ∀ (ps chunks : List (List Char)) (cur : List Char),
      (toksAll (partLoop m chunks cur ps).1 ++ splitWs (partLoop m chunks cur ps).2).Perm
        (toksAll chunks ++ splitWs cur ++ toksAll ps)
  | [], chunks, cur => by simp [partLoop, toksAll]
  | p :: ps, chunks, cur => by
    have ih := partLoop_toks m ps
    simp only [partLoop]
    by_cases hbig : m < p.length
    · rw [if_pos hbig]
      have hw := wordLoop_toks m (splitWs p) chunks [] (fun w hw => mem_splitWs hw)
      have hflush : toksAll (flushChunk (wordLoop m chunks [] (splitWs p)).1
          (wordLoop m chunks [] (splitWs p)).2) = toksAll chunks ++ splitWs p := by
        rw [flushChunk_toks, hw]
        simp [splitWs, splitWsGo]
      refine (ih _ cur).trans ?_
      rw [hflush]
      have hco : toksAll (p :: ps) = splitWs p ++ toksAll ps := by simp [toksAll]
      rw [hco]
      exact perm_middle_swap (toksAll chunks) (splitWs p) (splitWs cur) (toksAll ps)
    · rw [if_neg hbig]
      by_cases hfit : cur.length + 1 + p.length ≤ m
      · rw [if_pos hfit]
        refine (ih _ _).trans ?_
        rw [splitWs_strip_append]
        simp [toksAll, List.append_assoc]
      · rw [if_neg hfit]
        refine (ih _ _).trans ?_
        rw [flushChunk_toks]
        simp [toksAll, List.append_assoc]

/-- The sentence loop preserves the words up to permutation. -/
theorem sentLoop_toks (m : Nat) :
    ∀ (ss chunks : List (List Char)) (cur : List Char),
      (toksAll (sentLoop m chunks cur ss).1 ++ splitWs (sentLoop m chunks cur ss).2).Perm
        (toksAll chunks ++ splitWs cur ++ toksAll ss)
  | [], chunks, cur => by simp [sentLoop, toksAll]
  | s :: ss, chunks, cur => by
    have ih := sentLoop_toks m ss
    simp only [sentLoop]
    by_cases hbig : m < s.length
    · rw [if_pos hbig]
      refine (ih _ _).trans ?_
      have hp2 : (toksAll (partLoop m (flushChunk chunks cur) [] (splitAfter isClauseC s)).1 ++
          splitWs (partLoop m (flushChunk chunks cur) [] (splitAfter isClauseC s)).2).Perm
          (toksAll chunks ++ splitWs cur ++ splitWs s) := by
        refine (partLoop_toks m (splitAfter isClauseC s) (flushChunk chunks cur) []).trans ?_
        rw [flushChunk_toks, splitAfter_toks]
        simp [splitWs, splitWsGo, List.append_assoc]
      refine (hp2.append_right (toksAll ss)).trans ?_
      simp [toksAll, List.append_assoc]
    · rw [if_neg hbig]
      by_cases hfit : cur.length + 1 + s.length ≤ m
      · rw [if_pos hfit]
        refine (ih _ _).trans ?_
        rw [splitWs_strip_append]
        simp [toksAll, List.append_assoc]
      · rw [if_neg hfit]
        refine (ih _ _).trans ?_
        rw [flushChunk_toks]
        simp [toksAll, List.append_assoc]

/-- The final filter only removes whitespace-only chunks, which carry
no words. -/
theorem toksAll_filter :
    ∀ cs : List (List Char),
      toksAll (cs.filter (fun c => !(strip c).isEmpty)) = toksAll cs
  | [] => rfl
  | c :: cs => by
    have ih := toksAll_filter cs
    by_cases h : (strip c).isEmpty = true
    · have hnil : strip c = [] := by simpa using h
      have hws : splitWs c = [] :=
        (splitWs_eq_nil_iff c).mpr ((strip_eq_nil_iff c).mp hnil)
      simp [List.filter_cons, h, toksAll, hws]
      simpa [toksAll] using ih
    · simp [List.filter_cons, h, toksAll]
      simpa [toksAll] using ih

/-- Main token-preservation result: the chunker neither loses nor
duplicates any word of the input, though it may reorder them. -/
theorem split_text_toks_perm (t : List Char) (m : Nat) :
    (toksAll (split_text t m)).Perm (splitWs t) := by
  unfold split_text
  by_cases h : t.length ≤ m
  · rw [if_pos h]
    simp [toksAll]
  · rw [if_neg h]
    rw [toksAll_filter, flushChunk_toks]
    refine (sentLoop_toks m (splitAfter isSentC t) [] []).trans ?_
    rw [splitAfter_toks]
    simp [toksAll, splitWs, splitWsGo]

/-! Length bound through the chunker loops. -/

/-- Bound invariant: a produced chunk either fits the budget or is a
whole whitespace-free word of the original text. -/
def chunkOk (m : Nat) (t c : List Char) : Prop :=
  c.length ≤ m ∨ c ∈ splitWs t

/-- Case analysis of membership in a flushed chunk list. -/
theorem mem_flushChunk {chunks : List (List Char)} {cur c : List Char}
    (hc : c ∈ flushChunk chunks cur) : c ∈ chunks ∨ (cur ≠ [] ∧ c = strip cur) := by
  unfold flushChunk at hc
  by_cases hn : cur = []
  · rw [if_pos hn] at hc
    exact Or.inl hc
  · rw [if_neg hn] at hc
    rcases List.mem_append.mp hc with h1 | h1
    · exact Or.inl h1
    · exact Or.inr ⟨hn, by simpa using h1⟩

/-- Flushing an accumulator that fits the budget or is a whole word
preserves the bound invariant. -/
theorem flushChunk_bound {m : Nat} {t : List Char} {chunks : List (List Char)} {cur : List Char}
    (hch : ∀ c ∈ chunks, chunkOk m t c)
    (hcur : cur = [] ∨ cur.length ≤ m ∨ cur ∈ splitWs t) :
    ∀ c ∈ flushChunk chunks cur, chunkOk m t c := by
  intro c hc
  rcases mem_flushChunk hc with h1 | ⟨hne, heq⟩
  · exact hch c h1
  · subst heq
    rcases hcur with h2 | h2 | h2
    · exact absurd h2 hne
    · exact Or.inl (le_trans (strip_length_le _) h2)
    · right
      rw [strip_eq_self (mem_splitWs h2).2]
      exact h2

/-- Every chunk flushed by the word loop fits the budget or is a whole
word of t, and so does the trailing word_chunk. The only way a chunk
can exceed the budget is to be a single oversized word kept whole. -/
theorem wordLoop_bound (m : Nat) (t : List Char) :
    ∀ (ws chunks : List (List Char)) (wc : List Char),
      (∀ w ∈ ws, w ∈ splitWs t) →
      (∀ c ∈ chunks, chunkOk m t c) →
      (wc = [] ∨ wc.length ≤ m ∨ wc ∈ splitWs t) →
      (∀ c ∈ (wordLoop m chunks wc ws).1, chunkOk m t c) ∧
        ((wordLoop m chunks wc ws).2 = [] ∨ (wordLoop m chunks wc ws).2.length ≤ m ∨
          (wordLoop m chunks wc ws).2 ∈ splitWs t)
  | [], chunks, wc, _, hch, hwc => by simpa [wordLoop] using ⟨hch, hwc⟩
  | w :: ws, chunks, wc, hws, hch, hwc => by
    have hwmem := hws w (by simp)
    have ihf := wordLoop_bound m t ws
    simp only [wordLoop]
    by_cases hfit : wc.length + 1 + w.length ≤ m
    · rw [if_pos hfit]
      refine ihf chunks _ (fun v hv => hws v (by simp [hv])) hch ?_
      right; left
      have hl : (wc ++ ' ' :: w).length = wc.length + 1 + w.length := by
        simp only [List.length_append, List.length_cons]
        omega
      exact le_trans (strip_length_le _) (by rw [hl]; exact hfit)
    · rw [if_neg hfit]
      exact ihf _ w (fun v hv => hws v (by simp [hv]))
        (flushChunk_bound hch hwc) (Or.inr (Or.inr hwmem))

/-- Bound invariant through the clause loop: the accumulator always
fits the budget, and emitted chunks satisfy the bound invariant. -/
theorem partLoop_bound (m : Nat) (t : List Char) :
    ∀ (ps chunks : List (List Char)) (cur : List Char),
      (∀ p ∈ ps, ∀ w ∈ splitWs p, w ∈ splitWs t) →
      (∀ c ∈ chunks, chunkOk m t c) →
      cur.length ≤ m →
      (∀ c ∈ (partLoop m chunks cur ps).1, chunkOk m t c) ∧
        (partLoop m chunks cur ps).2.length ≤ m
  | [], chunks, cur, _, hch, hcur => by simpa [partLoop] using ⟨hch, hcur⟩
  | p :: ps, chunks, cur, hps, hch, hcur => by
    have ihf := partLoop_bound m t ps
    simp only [partLoop]
    by_cases hbig : m < p.length
    · rw [if_pos hbig]
      have hwb := wordLoop_bound m t (splitWs p) chunks []
        (fun w hw => hps p (by simp) w hw) hch (Or.inl rfl)
      exact ihf _ cur (fun q hq => hps q (by simp [hq]))
        (flushChunk_bound hwb.1 hwb.2) hcur
    · rw [if_neg hbig]
      by_cases hfit : cur.length + 1 + p.length ≤ m
      · rw [if_pos hfit]
        refine ihf chunks _ (fun q hq => hps q (by simp [hq])) hch ?_
        have hl : (cur ++ ' ' :: p).length = cur.length + 1 + p.length := by
          simp only [List.length_append, List.length_cons]
          omega
        exact le_trans (strip_length_le _) (by rw [hl]; exact hfit)
      · rw [if_neg hfit]
        exact ihf _ p (fun q hq => hps q (by simp [hq]))
          (flushChunk_bound hch (Or.inr (Or.inl hcur))) (by omega)

/-- Bound invariant through the sentence loop. -/
theorem sentLoop_bound (m : Nat) (t : List Char) :
    ∀ (ss chunks : List (List Char)) (cur : List Char),
      (∀ s ∈ ss, ∀ w ∈ splitWs s, w ∈ splitWs t) →
      (∀ c ∈ chunks, chunkOk m t c) →
      cur.length ≤ m →
      (∀ c ∈ (sentLoop m chunks cur ss).1, chunkOk m t c) ∧
        (sentLoop m chunks cur ss).2.length ≤ m
  | [], chunks, cur, _, hch, hcur => by simpa [sentLoop] using ⟨hch, hcur⟩
  | s :: ss, chunks, cur, hss, hch, hcur => by
    have ihf := sentLoop_bound m t ss
    simp only [sentLoop]
    by_cases hbig : m < s.length
    · rw [if_pos hbig]
      have hpb := partLoop_bound m t (splitAfter isClauseC s) (flushChunk chunks cur) []
        (fun q hq w hw => hss s (by simp) w (mem_of_mem_splitAfter hq hw))
        (flushChunk_bound hch (Or.inr (Or.inl hcur)))
        (by simp)
      exact ihf _ _ (fun q hq => hss q (by simp [hq])) hpb.1 hpb.2
    · rw [if_neg hbig]
      by_cases hfit : cur.length + 1 + s.length ≤ m
      · rw [if_pos hfit]
        refine ihf chunks _ (fun q hq => hss q (by simp [hq])) hch ?_
        have hl : (cur ++ ' ' :: s).length = cur.length + 1 + s.length := by
          simp only [List.length_append, List.length_cons]
          omega
        exact le_trans (strip_length_le _) (by rw [hl]; exact hfit)
      · rw [if_neg hfit]
        exact ihf _ s (fun q hq => hss q (by simp [hq]))
          (flushChunk_bound hch (Or.inr (Or.inl hcur))) (by omega)

/-- Main bound result: every chunk of _split_text either fits the
budget or is a whole whitespace-free word of the input, kept intact. -/
theorem split_text_bound (t : List Char) (m : Nat) :
    ∀ c ∈ split_text t m, c.length ≤ m ∨ c ∈ splitWs t := by
  intro c hc
  unfold split_text at hc
  by_cases h : t.length ≤ m
  · rw [if_pos h] at hc
    simp at hc
    subst hc
    exact Or.inl h
  · rw [if_neg h] at hc
    have hsb := sentLoop_bound m t (splitAfter isSentC t) [] []
      (fun s hs w hw => mem_of_mem_splitAfter hs hw) (by simp) (by simp)
    exact flushChunk_bound hsb.1 (Or.inr (Or.inl hsb.2)) c (List.mem_of_mem_filter hc)

/-! Claims about the text chunker. -/

/-- Claim C1, counterexample: the claim that joining the chunks of
_split_text(t, m) with single spaces reproduces t up to whitespace
normalization, with the non-whitespace content in the same order, fails
at t = "aa, bbbbbbbbbb cc", m = 5. The oversized clause
"bbbbbbbbbb cc" is word-split and emitted before the pending
accumulator "aa,", so the rejoined text is "bbbbbbbbbb cc aa," whose
word sequence differs from that of t. -/
theorem split_text_rejoin_cex :
    split_text "aa, bbbbbbbbbb cc".data 5 =
      ["bbbbbbbbbb".data, "cc".data, "aa,".data] ∧
    splitWs (joinSpace (split_text "aa, bbbbbbbbbb cc".data 5)) ≠
      splitWs "aa, bbbbbbbbbb cc".data := by
  constructor
  · decide
  · decide

/-- Claim C1, amended: joining the chunks of _split_text(t, m) with a
single space yields a string whose whitespace-separated words are a
permutation of the words of t — no character other than whitespace is
lost or duplicated — but the order of the non-whitespace content is not
always preserved: when an oversized clause is word-split while shorter
clauses are pending in the accumulator, its word chunks are emitted
ahead of the accumulator. -/
theorem split_text_rejoin_perm (t : List Char) (m : Nat) :
    (splitWs (joinSpace (split_text t m))).Perm (splitWs t) := by
  rw [splitWs_joinSpace]
  exact split_text_toks_perm t m

/-- Claim C2: for every text t and budget m > 0, every chunk produced
by _split_text(t, m) has length at most m, except chunks that are
single whitespace-free words of t longer than m, which are emitted
whole and never truncated. -/
theorem split_text_chunk_bound (t : List Char) (m : Nat) (hm : 0 < m) :
    ∀ c ∈ split_text t m,
      c.length ≤ m ∨
        (m < c.length ∧ c ∈ splitWs t ∧ ∀ ch ∈ c, isSpace ch = false) := by
  intro c hc
  rcases split_text_bound t m c hc with h | h
  · exact Or.inl h
  · by_cases hl : c.length ≤ m
    · exact Or.inl hl
    · exact Or.inr ⟨by omega, h, (mem_splitWs h).2⟩

/-- Claim C2, witness: at t = "aa bbbb", m = 3, the oversized chunk
"bbbb" is a whole word of t. -/
theorem split_text_chunk_bound_witness :
    (0 < 3 ∧ "bbbb".data ∈ split_text "aa bbbb".data 3) ∧
      ("bbbb".data.length ≤ 3 ∨
        (3 < "bbbb".data.length ∧ "bbbb".data ∈ splitWs "aa bbbb".data ∧
          ∀ ch ∈ "bbbb".data, isSpace ch = false)) :=
  ⟨⟨by decide, by decide⟩,
    split_text_chunk_bound "aa bbbb".data 3 (by decide) "bbbb".data (by decide)⟩

/-- Claim C4: a text already within the budget is returned as the
unchanged singleton list, with no trimming and no filtering
(server.py:74-75). -/
theorem split_text_short (t : List Char) (m : Nat) (h : t.length ≤ m) :
    split_text t m = [t] := by
  unfold split_text
  rw [if_pos h]

/-- Claim C4, witness at t = "hi", m = 5. -/
theorem split_text_short_witness :
    "hi".data.length ≤ 5 ∧ split_text "hi".data 5 = ["hi".data] :=
  ⟨by decide, split_text_short "hi".data 5 (by decide)⟩

/-- Claim C5, counterexample: _split_text("", 1) is not the empty
list. The short-input fast path at server.py:74-75 returns the
singleton containing the empty string before the whitespace-only filter
at server.py:121 can run. -/
theorem split_text_empty_cex : split_text [] 1 ≠ ([] : List (List Char)) := by
  decide

/-- Claim C5, amended: for every budget m, _split_text("", m) returns
the one-element list containing the empty string, not the empty list;
the fast path returns the input unchanged before any filtering. -/
theorem split_text_empty (m : Nat) : split_text [] m = [[]] := by
  unfold split_text
  rw [if_pos (by simp)]

/-- Claim C6: the chunker is a total function in this embedding — both
scanners and all three loops are structurally recursive, so
_split_text(t, m) terminates and returns a list for every t and every
m ≥ 0, including the degenerate budget m = 0, at which it still makes
progress: _split_text("a", 0) = ["a"], and for every budget the words
of the input are all emitted into the output chunks (as a permutation
of the input's words). -/
theorem split_text_degenerate :
    split_text "a".data 0 = ["a".data] ∧
      ∀ (t : List Char) (m : Nat), (toksAll (split_text t m)).Perm (splitWs t) :=
  ⟨by decide, fun t m => split_text_toks_perm t m⟩

/-- Claim C7: the spec's Scenario 1,
_split_text("Hello world. This is a test.", 15). -/
theorem split_text_scenario1 :
    split_text "Hello world. This is a test.".data 15 =
      ["Hello world.".data, "This is a test.".data] := by
  decide

/-! Audio concatenation of _generate_wav
(src/scripts/services/chatterbox/server.py:124-153). A torch tensor of
shape (1, n) is modelled as a list of integer samples together with an
abstract dtype tag and a device name; torch.cat along dim 1
concatenates the samples and keeps the first argument's dtype and
device. -/

/-- Model of a (1, n) torch waveform tensor. -/
structure Wav where
  dtype : Nat
  device : List Char
  samples : List Int
deriving DecidableEq

/-- Model of int(0.3 * sample_rate) at server.py:145, in exact rational
arithmetic (the double-precision rounding of the literal 0.3 is
abstracted away): truncated division of 3 * sr by 10. -/
def silenceLen (modelSr : Option Nat) : Nat :=
  3 * modelSr.getD 24000 / 10

/-- The silence buffer of server.py:146-148: zeros with the dtype of
the first chunk's output, created on cpu and moved to the first chunk's
device when that device is not cpu. -/
def silenceBuffer (modelSr : Option Nat) (first : Wav) : Wav :=
  if first.device ≠ "cpu".data then
    { dtype := first.dtype, device := first.device,
      samples := List.replicate (silenceLen modelSr) 0 }
  else
    { dtype := first.dtype, device := "cpu".data,
      samples := List.replicate (silenceLen modelSr) 0 }

/-- torch.cat([a, sil, b], dim=1) at server.py:152. -/
def catSilence (sil : Wav) (a b : Wav) : Wav :=
  { dtype := a.dtype, device := a.device, samples := a.samples ++ sil.samples ++ b.samples }

/-- The combination step of _generate_wav (server.py:142-153): a single
waveform is returned as is; with none the Python code would fail at
wavs[0], modelled as none; otherwise the waveforms are folded together
with one silence buffer between consecutive chunks, in chunk order. -/
def combineWavs (modelSr : Option Nat) : List Wav → Option Wav
  | [] => none
  | [w] => some w
  | w :: rest => some (rest.foldl (catSilence (silenceBuffer modelSr w)) w)

/-- _generate_wav itself, with the model's per-chunk generation call
abstracted as the function gen: chunk the text, synthesize each chunk,
and combine. -/
def generate_wav (gen : List Char → Wav) (modelSr : Option Nat)
    (text : List Char) (chunk_size : Nat) : Option Wav :=
  combineWavs modelSr ((split_text text chunk_size).map gen)

/-- Unfolding the concatenation fold. -/
theorem foldl_catSilence (sil : Wav) :
    ∀ (l : List Wav) (a : Wav),
      l.foldl (catSilence sil) a =
        { dtype := a.dtype, device := a.device,
          samples := a.samples ++ (l.map (fun u => sil.samples ++ u.samples)).flatten }
  | [], a => by simp [catSilence]
  | b :: l, a => by
    rw [List.foldl_cons, foldl_catSilence sil l (catSilence sil a b)]
    simp [catSilence, List.append_assoc]

/-- Sample count of the interleaved flatten. -/
theorem flatten_silence_length (k : Nat) :
    ∀ l : List Wav,
      ((l.map (fun u => List.replicate k (0 : Int) ++ u.samples)).flatten).length =
        (l.map (fun u => u.samples.length)).sum + l.length * k
  | [] => by simp
  | b :: l => by
    simp only [List.map_cons, List.flatten_cons, List.length_append,
      flatten_silence_length k l]
    simp [List.length_replicate, List.sum_cons]
    ring

/-- Claim C8: when _generate_wav combines n = 2 + k chunks of audio,
the result is the first waveform followed, for each further waveform in
chunk order, by one silence buffer and that waveform; the silence
buffer has int(0.3 * sample_rate) zero samples and carries the dtype
and the device of the first chunk's output; consequently the total
sample count is the sum of the chunk sample counts plus (n - 1) such
silence gaps. -/
theorem combineWavs_concat (msr : Option Nat) (w v : Wav) (vs : List Wav) :
    combineWavs msr (w :: v :: vs) =
      some ({ dtype := w.dtype, device := w.device,
              samples := w.samples ++
                ((v :: vs).map
                  (fun u => List.replicate (silenceLen msr) (0 : Int) ++ u.samples)).flatten } : Wav) ∧
    (silenceBuffer msr w).dtype = w.dtype ∧
    (silenceBuffer msr w).device = w.device ∧
    (silenceBuffer msr w).samples = List.replicate (silenceLen msr) 0 ∧
    (w.samples ++
        ((v :: vs).map (fun u => List.replicate (silenceLen msr) (0 : Int) ++ u.samples)).flatten).length =
      ((w :: v :: vs).map (fun u => u.samples.length)).sum + (vs.length + 1) * silenceLen msr := by
  have hsil : (silenceBuffer msr w).samples = List.replicate (silenceLen msr) 0 := by
    unfold silenceBuffer
    by_cases h : w.device ≠ "cpu".data
    · rw [if_pos h]
    · rw [if_neg h]
  have hdev : (silenceBuffer msr w).device = w.device := by
    unfold silenceBuffer
    by_cases h : w.device ≠ "cpu".data
    · rw [if_pos h]
    · rw [if_neg h]
      simp only [ne_eq, not_not] at h
      rw [h]
  have hdt : (silenceBuffer msr w).dtype = w.dtype := by
    unfold silenceBuffer
    by_cases h : w.device ≠ "cpu".data
    · rw [if_pos h]
    · rw [if_neg h]
  refine ⟨?_, hdt, hdev, hsil, ?_⟩
  · show some ((v :: vs).foldl (catSilence (silenceBuffer msr w)) w) = _
    rw [foldl_catSilence, hsil]
  · rw [List.length_append, flatten_silence_length (silenceLen msr) (v :: vs)]
    simp [List.sum_cons, List.length_cons]
    ring

/-! Request validation of the four HTTP gateways. JSON payloads are
modelled post-parse as records of the optional string fields the
handlers read; an unparseable body is the none case. Numeric sampling
parameters do not affect any claim and are omitted from the payload
records; the outcome constructors mark where the handler would hand off
to the backend. -/

/-- Prefix test for the substring check below. -/
def listStarts : List Char → List Char → Bool
  | [], _ => true
  | _ :: _, [] => false
  | a :: as, b :: bs => a = b && listStarts as bs

/-- Python's substring containment test, needle in haystack. -/
def isSubstr (n : List Char) (h : List Char) : Bool :=
  listStarts n h ||
    match h with
    | [] => false
    | _ :: t => isSubstr n t

/-- The content-type check `"application/json" in content_type` of the
two TTS handlers (chatterbox server.py:191, kokomo server.py:63). -/
def jsonCT (contentType : List Char) : Bool :=
  isSubstr "application/json".data contentType

/-- Python's `a or b` on an optional string against a string default:
the left value is taken when present and truthy (non-empty). -/
def pyOr (a : Option (List Char)) (b : List Char) : List Char :=
  match a with
  | none => b
  | some s => if s = [] then b else s

/-- JSON fields of a /tts body that the chatterbox and kokomo handlers
read: text, input, model. (The chatterbox handler never reads model;
the field is kept in the record to state that it is ignored. Voice and
sampling fields are orthogonal to every claim.) -/
structure TtsPayload where
  textField : Option (List Char)
  inputField : Option (List Char)
  modelField : Option (List Char)
deriving DecidableEq

/-- Outcome of the chatterbox POST /tts handler: an HTTP rejection, or
handing the resolved text to in-process generation (_generate_wav). -/
inductive CbOutcome
  | reject (status : Nat) (body : List Char)
  | synthesize (text : List Char)
deriving DecidableEq

/-- Validation tail of chatterbox do_POST (server.py:210-216): strip
the resolved text, reject with 400 "missing text" when empty, otherwise
proceed to generation. -/
def chatterboxValidate (text0 : List Char) : CbOutcome :=
  if strip text0 = [] then CbOutcome.reject 400 "missing text\n".data
  else CbOutcome.synthesize (strip text0)

/-- The chatterbox do_POST text resolution (server.py:180-216, path and
parameter handling elided): JSON bodies resolve text as
`payload.get("text") or payload.get("input") or ""`, unparseable JSON
is rejected with 400 (exception text abstracted), and any other
content type takes the raw body as the text. -/
def chatterboxPost (contentType raw : List Char) (parsed : Option TtsPayload) : CbOutcome :=
  if jsonCT contentType then
    match parsed with
    | none => CbOutcome.reject 400 "invalid json".data
    | some p => chatterboxValidate (pyOr p.textField (pyOr p.inputField []))
  else
    chatterboxValidate raw

/-- Outcome of the kokomo POST /tts handler: an HTTP rejection, or
invoking the mlx-audio generator subprocess with the given --model and
--text arguments. -/
inductive KkOutcome
  | reject (status : Nat) (body : List Char)
  | runGenerator (model : List Char) (text : List Char)
deriving DecidableEq

/-- Validation tail of kokomo do_POST (server.py:74-105): strip the
text, reject 400 "missing text" when empty, reject 500 when no
generator binary was found at startup, otherwise run the subprocess
with the resolved model and text. -/
def kokomoValidate (model text0 : List Char) (generatorFound : Bool) : KkOutcome :=
  if strip text0 = [] then KkOutcome.reject 400 "missing text\n".data
  else if !generatorFound then
    KkOutcome.reject 500 "mlx-audio generator not found. Install mlx-audio in your venv.\n".data
  else
    KkOutcome.runGenerator model (strip text0)

/-- The kokomo do_POST resolution (server.py:51-105): like chatterbox,
but a JSON body also resolves the model as
`str(payload.get("model") or model)`, overriding the server's bound
model with the caller's. -/
def kokomoPost (boundModel : List Char) (contentType raw : List Char)
    (parsed : Option TtsPayload) (generatorFound : Bool) : KkOutcome :=
  if jsonCT contentType then
    match parsed with
    | none => KkOutcome.reject 400 "invalid json".data
    | some p =>
      kokomoValidate (pyOr p.modelField boundModel)
        (pyOr p.textField (pyOr p.inputField [])) generatorFound
  else
    kokomoValidate boundModel raw generatorFound

/-- A chat message as read by the mlx and vlm handlers. The content is
abstracted to a string; the structured content-part form only matters
to the vlm text/image extraction, which no claim touches. -/
structure ChatMsg where
  role : List Char
  content : List Char
deriving DecidableEq

/-- JSON fields of a chat-completions body that the model check reads:
model and messages. `payload.get("messages") or []` makes an absent
field the empty list. -/
structure ChatPayload where
  modelField : Option (List Char)
  messages : List ChatMsg
deriving DecidableEq

/-- Outcome of the mlx and vlm POST /v1/chat/completions handlers up to
the model check: a rejection (the JSON error body is modelled
structurally as the error string plus the optional model field), or
acceptance carrying the bound model that the generation will use. -/
inductive ChatOutcome
  | reject (status : Nat) (err : List Char) (modelNamed : Option (List Char))
  | accepted (modelUsed : List Char) (messages : List ChatMsg)
deriving DecidableEq

/-- Error string of the mlx model rejection (mlx server.py:123). -/
def mlxModelErr : List Char :=
  "this server is started with a single model; restart with MLX_MODEL to change".data

/-- Error string of the vlm model rejection (vlm server.py:129). -/
def vlmModelErr : List Char :=
  "this server is started with a single model; restart with VLM_MODEL to change".data

/-- The mlx do_POST validation (mlx server.py:99-137): reject an empty
messages list, then resolve the model id as
`str(payload.get("model") or self.server.model_id)` and reject with a
400 naming the bound model when it differs; otherwise generation
proceeds on the server's bound model. Subsequent prompt construction
and locking are modelled separately. -/
def mlxPost (bound : List Char) (p : ChatPayload) : ChatOutcome :=
  if p.messages = [] then ChatOutcome.reject 400 "missing messages[]".data none
  else if pyOr p.modelField bound ≠ bound then
    ChatOutcome.reject 400 mlxModelErr (some bound)
  else
    ChatOutcome.accepted bound p.messages

/-- The vlm do_POST validation (vlm server.py:105-134), identical to
the mlx one up to the error text; the later text/image extraction is
abstracted behind the accepted constructor. -/
def vlmPost (bound : List Char) (p : ChatPayload) : ChatOutcome :=
  if p.messages = [] then ChatOutcome.reject 400 "missing messages[]".data none
  else if pyOr p.modelField bound ≠ bound then
    ChatOutcome.reject 400 vlmModelErr (some bound)
  else
    ChatOutcome.accepted bound p.messages

/-! Claims about the gateway request validation. -/

/-- Claim C9: on both TTS gateways, a POST /tts request whose resolved
text is empty after trimming — the empty raw body of a non-JSON
request, or a JSON body whose text/input resolution is empty, covering
the JSON body with "text" set to the empty string — is rejected with
status 400 and the body "missing text", before any synthesize or
runGenerator outcome (the only constructors that hand off to backend
inference or a subprocess) can be produced; the final conjunct records
that the body contains the words "missing text". -/
theorem tts_missing_text :
    (∀ (contentType raw : List Char) (parsed : Option TtsPayload)
        (bound : List Char) (gf : Bool),
      jsonCT contentType = false → strip raw = [] →
      chatterboxPost contentType raw parsed = CbOutcome.reject 400 "missing text\n".data ∧
        kokomoPost bound contentType raw parsed gf =
          KkOutcome.reject 400 "missing text\n".data) ∧
    (∀ (contentType raw : List Char) (p : TtsPayload) (bound : List Char) (gf : Bool),
      jsonCT contentType = true →
      strip (pyOr p.textField (pyOr p.inputField [])) = [] →
      chatterboxPost contentType raw (some p) = CbOutcome.reject 400 "missing text\n".data ∧
        kokomoPost bound contentType raw (some p) gf =
          KkOutcome.reject 400 "missing text\n".data) ∧
    isSubstr "missing text".data "missing text\n".data = true := by
  refine ⟨?_, ?_, by decide⟩
  · intro ct raw parsed bound gf hct hraw
    constructor
    · simp [chatterboxPost, chatterboxValidate, hct, hraw]
    · simp [kokomoPost, kokomoValidate, hct, hraw]
  · intro ct raw p bound gf hct htext
    constructor
    · simp [chatterboxPost, chatterboxValidate, hct, htext]
    · simp [kokomoPost, kokomoValidate, hct, htext]

/-- Claim C9, witness: the empty raw body with no content type, and the
JSON body with "text" set to the empty string, at concrete inputs. -/
theorem tts_missing_text_witness :
    (jsonCT [] = false ∧ strip ([] : List Char) = [] ∧
      chatterboxPost [] [] none = CbOutcome.reject 400 "missing text\n".data) ∧
    (jsonCT "application/json".data = true ∧
      kokomoPost "bound-model".data "application/json".data []
        (some ⟨some [], none, none⟩) true = KkOutcome.reject 400 "missing text\n".data) := by
  refine ⟨⟨by decide, by decide, ?_⟩, by decide, ?_⟩
  · exact (tts_missing_text.1 [] [] none "x".data true (by decide) (by decide)).1
  · exact (tts_missing_text.2.1 "application/json".data [] ⟨some [], none, none⟩
      "bound-model".data true (by decide) (by decide)).2

/-- Claim C3, counterexample: the claim that every gateway rejects a
request naming a model id different from the bound one fails at the
kokomo TTS gateway, which instead forwards the caller's model id to the
generator subprocess (server.py:67 resolves the model from the payload
and server.py:91-102 passes it as --model): with bound model
"mlx-community/Kokoro-82M-bf16", a JSON request with model
"other-model" and text "hi" reaches the subprocess with the caller's
model and is not rejected. -/
theorem kokomo_model_forward_cex :
    kokomoPost "mlx-community/Kokoro-82M-bf16".data "application/json".data []
      (some ⟨some "hi".data, none, some "other-model".data⟩) true =
      KkOutcome.runGenerator "other-model".data "hi".data := by
  decide

/-- Claim C3, amended: model-id enforcement holds for the two
chat-completions gateways — a request naming a model id different from
the bound one is rejected with a 400 error whose body names the bound
model, and the bound model is the one any accepted generation uses —
but not for the TTS gateways: the kokomo gateway substitutes the
caller's model id into the generator subprocess invocation, and the
chatterbox gateway has no model binding and ignores a model field
entirely. -/
theorem model_enforcement_amended :
    (∀ (bound : List Char) (p : ChatPayload),
      p.messages ≠ [] → pyOr p.modelField bound ≠ bound →
      mlxPost bound p = ChatOutcome.reject 400 mlxModelErr (some bound)) ∧
    (∀ (bound : List Char) (p : ChatPayload),
      p.messages ≠ [] → pyOr p.modelField bound ≠ bound →
      vlmPost bound p = ChatOutcome.reject 400 vlmModelErr (some bound)) ∧
    (∀ (bound ct raw : List Char) (p : TtsPayload) (m : List Char),
      jsonCT ct = true → p.modelField = some m → m ≠ [] →
      strip (pyOr p.textField (pyOr p.inputField [])) ≠ [] →
      kokomoPost bound ct raw (some p) true =
        KkOutcome.runGenerator m (strip (pyOr p.textField (pyOr p.inputField [])))) ∧
    (∀ (ct raw : List Char) (t i m1 m2 : Option (List Char)),
      chatterboxPost ct raw (some ⟨t, i, m1⟩) = chatterboxPost ct raw (some ⟨t, i, m2⟩)) := by
  refine ⟨?_, ?_, ?_, ?_⟩
  · intro bound p hmsg hmod
    simp [mlxPost, hmsg, hmod]
  · intro bound p hmsg hmod
    simp [vlmPost, hmsg, hmod]
  · intro bound ct raw p m hct hpm hmne htext
    have hm : pyOr p.modelField bound = m := by
      rw [hpm]
      simp [pyOr, hmne]
    simp [kokomoPost, kokomoValidate, hct, hm, htext]
  · intro ct raw t i m1 m2
    by_cases h : jsonCT ct = true
    · simp [chatterboxPost, h]
    · simp [chatterboxPost, h]

/-- Claim C3, witness: concrete instances of all four amended
conjuncts. -/
theorem model_enforcement_amended_witness :
    mlxPost "my-model".data ⟨some "other-model".data, [⟨"user".data, "hi".data⟩]⟩ =
      ChatOutcome.reject 400 mlxModelErr (some "my-model".data) ∧
    vlmPost "my-model".data ⟨some "other-model".data, [⟨"user".data, "hi".data⟩]⟩ =
      ChatOutcome.reject 400 vlmModelErr (some "my-model".data) ∧
    kokomoPost "my-model".data "application/json".data []
      (some ⟨some "hi".data, none, some "other-model".data⟩) true =
      KkOutcome.runGenerator "other-model".data
        (strip (pyOr (some "hi".data) (pyOr none []))) ∧
    chatterboxPost [] [] (some ⟨none, none, some "other-model".data⟩) =
      chatterboxPost [] [] (some ⟨none, none, none⟩) :=
  ⟨model_enforcement_amended.1 _ _ (by decide) (by decide),
    model_enforcement_amended.2.1 _ _ (by decide) (by decide),
    model_enforcement_amended.2.2.1 _ _ [] _ _ (by decide) rfl (by decide) (by decide),
    model_enforcement_amended.2.2.2 [] [] none none _ _⟩

/-! The generation lock of the mlx LLM server
(src/scripts/services/mlx/server.py:68-74 and 134-137). The server
holds one shared model handle; each handler thread builds the prompt
outside the lock and runs the generate call inside `with
self.server.lock`. The lock and the threads are modelled as a small
interleaving transition system in which the generate call is a
distinguished program-counter phase. -/

/-- Program counter of one request-handling thread, following do_POST:
outside the lock (parsing and _build_prompt), inside the with block
before the generate call, executing the generate call on the shared
handle, done generating but still inside the with block, and after
release. -/
inductive GenPC
  | outside
  | entered
  | generating
  | finished
  | released
deriving DecidableEq

/-- Global state of the mlx server process: the lock owner (none when
the lock is free) and every thread's program counter. -/
structure LockState (n : Nat) where
  lock : Option (Fin n)
  pc : Fin n → GenPC

/-- Initial state: lock free, all threads before the critical
section. -/
def lockInit (n : Nat) : LockState n :=
  { lock := none, pc := fun _ => GenPC.outside }

/-- Interleaving semantics of the handler threads around
threading.Lock: acquire succeeds only when the lock is free, the with
block brackets the generate call, and release frees the lock. -/
inductive LockStep (n : Nat) : LockState n → LockState n → Prop
  | acquire (s : LockState n) (i : Fin n) :
      s.pc i = GenPC.outside → s.lock = none →
      LockStep n s { lock := some i, pc := Function.update s.pc i GenPC.entered }
  | beginGen (s : LockState n) (i : Fin n) :
      s.pc i = GenPC.entered →
      LockStep n s { lock := s.lock, pc := Function.update s.pc i GenPC.generating }
  | endGen (s : LockState n) (i : Fin n) :
      s.pc i = GenPC.generating →
      LockStep n s { lock := s.lock, pc := Function.update s.pc i GenPC.finished }
  | release (s : LockState n) (i : Fin n) :
      s.pc i = GenPC.finished →
      LockStep n s { lock := none, pc := Function.update s.pc i GenPC.released }

/-- States reachable from the initial state by interleaved steps. -/
inductive LockReach (n : Nat) : LockState n → Prop
  | init : LockReach n (lockInit n)
  | step {s s' : LockState n} : LockReach n s → LockStep n s s' → LockReach n s'

/-- A thread between acquire and release. -/
def holdsLock {n : Nat} (s : LockState n) (i : Fin n) : Prop :=
  s.pc i = GenPC.entered ∨ s.pc i = GenPC.generating ∨ s.pc i = GenPC.finished

/-- Lock invariant: any thread inside the with block is the recorded
lock owner. -/
def lockInv {n : Nat} (s : LockState n) : Prop :=
  ∀ i, holdsLock s i → s.lock = some i

/-- The invariant holds initially. -/
theorem lockInv_init (n : Nat) : lockInv (lockInit n) := by
  intro i hi
  rcases hi with h | h | h <;> simp [lockInit] at h

/-- The invariant is preserved by every step. -/
theorem lockInv_step {n : Nat} {s s' : LockState n}
    (hs : lockInv s) (hstep : LockStep n s s') : lockInv s' := by
  cases hstep with
  | acquire i hpc hlock =>
    intro j hj
    simp only [holdsLock, Function.update_apply] at hj
    by_cases hij : j = i
    · subst hij; rfl
    · exfalso
      simp only [if_neg hij] at hj
      rw [hs j hj] at hlock
      exact Option.noConfusion hlock
  | beginGen i hpc =>
    intro j hj
    simp only [holdsLock, Function.update_apply] at hj
    by_cases hij : j = i
    · subst hij
      exact hs _ (Or.inl hpc)
    · simp only [if_neg hij] at hj
      exact hs j hj
  | endGen i hpc =>
    intro j hj
    simp only [holdsLock, Function.update_apply] at hj
    by_cases hij : j = i
    · subst hij
      exact hs _ (Or.inr (Or.inl hpc))
    · simp only [if_neg hij] at hj
      exact hs j hj
  | release i hpc =>
    intro j hj
    exfalso
    simp only [holdsLock, Function.update_apply] at hj
    by_cases hij : j = i
    · subst hij
      simp at hj
    · simp only [if_neg hij] at hj
      have h1 := hs j hj
      have h2 := hs i (Or.inr (Or.inr hpc))
      rw [h1] at h2
      exact hij (Option.some.inj h2)

/-- Every reachable state satisfies the lock invariant. -/
theorem lockReach_inv {n : Nat} {s : LockState n} (h : LockReach n s) : lockInv s := by
  induction h with
  | init => exact lockInv_init n
  | step _ hstep ih => exact lockInv_step ih hstep

/-- Claim C10: on the mlx LLM gateway — the one gateway holding the
shared mutable model handle — every generate call runs inside the with
block of the server's threading.Lock, so in any reachable interleaving
of handler threads at most one thread is executing the generate call at
a time: two threads both at the generating phase are the same thread,
and generate calls on the shared handle never interleave. -/
theorem mlx_generate_mutex {n : Nat} {s : LockState n} (i j : Fin n)
    (hreach : LockReach n s)
    (hi : s.pc i = GenPC.generating) (hj : s.pc j = GenPC.generating) : i = j := by
  have hinv := lockReach_inv hreach
  have h1 := hinv i (Or.inr (Or.inl hi))
  have h2 := hinv j (Or.inr (Or.inl hj))
  rw [h1] at h2
  exact Option.some.inj h2

/-- The two-thread state after thread 0 acquires the lock and begins
generating. -/
def lockWitState : LockState 2 :=
  { lock := some 0,
    pc := Function.update (Function.update (lockInit 2).pc 0 GenPC.entered) 0
      GenPC.generating }

/-- The witness state is reachable in two steps. -/
theorem lockWitState_reach : LockReach 2 lockWitState := by
  have h1 : LockStep 2 (lockInit 2)
      { lock := some 0, pc := Function.update (lockInit 2).pc 0 GenPC.entered } :=
    LockStep.acquire (lockInit 2) 0 rfl rfl
  have h2 : LockStep 2
      { lock := some 0, pc := Function.update (lockInit 2).pc 0 GenPC.entered }
      lockWitState :=
    LockStep.beginGen
      ({ lock := some 0, pc := Function.update (lockInit 2).pc 0 GenPC.entered } : LockState 2)
      0 (by simp [Function.update_apply])
  exact LockReach.step (LockReach.step LockReach.init h1) h2

/-- Claim C10, witness: in the concrete reachable two-thread state with
thread 0 generating, mutual exclusion applied at threads 0 and 0. -/
theorem mlx_generate_mutex_witness :
    lockWitState.pc 0 = GenPC.generating ∧ (0 : Fin 2) = 0 :=
  ⟨by simp [lockWitState, Function.update_apply],
    mlx_generate_mutex 0 0 lockWitState_reach
      (by simp [lockWitState, Function.update_apply])
      (by simp [lockWitState, Function.update_apply])⟩

end Agentloop
